import Mathlib

/-!
Verification of the recurring-transaction core of the BudgetBuddy personal
finance tracker.

The embedded code comes from `database.py` (functions
`add_recurring_transaction`, `delete_recurring_transaction`,
`get_all_recurring_transactions`, `process_recurring_transactions`) and from
`recurring_transactions.py` (function `calculate_monthly_equivalent`).

Modelling conventions:
* Calendar dates are triples (year, month, day) of naturals; Python's
  `datetime.date` bounds (years 1..9999) are idealized away, years are
  unbounded.  `Date.Valid` captures what Python accepts as a constructible
  date.
* Python `float` amounts are modelled as exact rationals; the arithmetic the
  claims exercise (integer multiples, `* 4.33 = * 433/100`, division by
  3/6/12) is exact in both.
* A Python `ValueError` escaping `process_recurring_transactions` (possible
  in the uncaught `replace(year=year+1)` of the `Yearly` branch) aborts the
  call before `conn.commit()`, so no mutation persists.  The function is
  therefore modelled as returning `Option (DB × Nat)`, where `none` means
  "raised, database unchanged".
* The SQLite row set scanned by `process_recurring_transactions` is modelled
  as the stored list filtered by the SQL `WHERE` clause, in store order.
-/

/-- A calendar date, mirroring Python's `datetime.date` with unbounded year. -/
structure Date where
  year : Nat
  month : Nat
  day : Nat
deriving DecidableEq, Repr

/-- Leap-year test, as used by Python's `calendar` module. -/
def isLeap (y : Nat) : Bool :=
  (y % 4 == 0 && y % 100 != 0) || (y % 400 == 0)

/-- `calendar.monthrange(y, m)[1]`: number of days of month `m` in year `y`
(months are 1-based; only evaluated at `1 ≤ m ≤ 12`). -/
def daysInMonth (y m : Nat) : Nat :=
  if m = 2 then (if isLeap y then 29 else 28)
  else if m = 4 ∨ m = 6 ∨ m = 9 ∨ m = 11 then 30
  else 31

/-- A date Python's `datetime.date` constructor accepts (year bound dropped). -/
def Date.Valid (d : Date) : Prop :=
  1 ≤ d.month ∧ d.month ≤ 12 ∧ 1 ≤ d.day ∧ d.day ≤ daysInMonth d.year d.month

instance (d : Date) : Decidable d.Valid := by
  unfold Date.Valid; exact inferInstance

/-- Chronological order on dates (what SQLite's `date(a) <= date(b)` computes
on ISO strings). -/
def Date.Le (a b : Date) : Prop :=
  a.year < b.year ∨ (a.year = b.year ∧
    (a.month < b.month ∨ (a.month = b.month ∧ a.day ≤ b.day)))

instance (a b : Date) : Decidable (Date.Le a b) := by
  unfold Date.Le; exact inferInstance

/-- Strict chronological order on dates. -/
def Date.Lt (a b : Date) : Prop :=
  a.year < b.year ∨ (a.year = b.year ∧
    (a.month < b.month ∨ (a.month = b.month ∧ a.day < b.day)))

instance (a b : Date) : Decidable (Date.Lt a b) := by
  unfold Date.Lt; exact inferInstance

/-- Position of a date's month on the infinite month line; advancing by `k`
calendar months adds `k` to this index. -/
def Date.monthIdx (d : Date) : Nat :=
  d.year * 12 + d.month

/-- Successor day with calendar rollover (`date + timedelta(days=1)`). -/
def Date.nextDay (d : Date) : Date :=
  if d.day < daysInMonth d.year d.month then ⟨d.year, d.month, d.day + 1⟩
  else if d.month < 12 then ⟨d.year, d.month + 1, 1⟩
  else ⟨d.year + 1, 1, 1⟩

/-- `date + timedelta(days=k)`. -/
def Date.addDays (d : Date) : Nat → Date
  | 0 => d
  | k + 1 => (Date.addDays d k).nextDay

/-- The `while month > 12: month -= 12; year += 1` loop from the `3 Months`
and `6 Months` branches of `process_recurring_transactions`: takes the raw
`month` and `year`, returns the normalized pair. -/
def normalizeMonth (m y : Nat) : Nat × Nat :=
  if m > 12 then normalizeMonth (m - 12) (y + 1) else (m, y)
termination_by m

/-- `date.replace(year=y, month=m, day=d)`: `some` of the new date when it is
constructible, `none` for Python's `ValueError`. -/
def dateReplace (y m d : Nat) : Option Date :=
  if 1 ≤ m ∧ m ≤ 12 ∧ 1 ≤ d ∧ d ≤ daysInMonth y m then some ⟨y, m, d⟩ else none

/-- Step the target (month, year) by `k` months and then land `next_date_obj`
there: `try: replace(year, month) except ValueError: replace(year, month,
last_day)` — the shared shape of the `Monthly`, `3 Months` and `6 Months`
branches.  Total because the clamped day is always constructible. -/
def addMonthsClamped (d : Date) (m y : Nat) : Date :=
  match dateReplace y m d.day with
  | some d' => d'
  | none => ⟨y, m, daysInMonth y m⟩

/-- The next-date computation inlined in `process_recurring_transactions`
(database.py, `# Calculate next date` block): one frequency step from
`next_date_obj`.  `none` models the uncaught `ValueError` of the `Yearly`
branch; every other branch never raises.  An unrecognized frequency string
falls through to `new_next_date = next_date_obj`. -/
def computeNextDate (d : Date) (frequency : String) : Option Date :=
  if frequency = "Daily" then some (d.addDays 1)
  else if frequency = "Weekly" then some (d.addDays 7)
  else if frequency = "Monthly" then
    let month := d.month + 1
    let year := d.year
    let my := if month > 12 then (1, year + 1) else (month, year)
    some (addMonthsClamped d my.1 my.2)
  else if frequency = "3 Months" then
    let my := normalizeMonth (d.month + 3) d.year
    some (addMonthsClamped d my.1 my.2)
  else if frequency = "6 Months" then
    let my := normalizeMonth (d.month + 6) d.year
    some (addMonthsClamped d my.1 my.2)
  else if frequency = "Yearly" then
    dateReplace (d.year + 1) d.month d.day
  else
    some d

/-- The frequency strings offered by the UI selectboxes in
`recurring_transactions.py`. -/
def validFrequencies : List String :=
  ["Daily", "Weekly", "Monthly", "3 Months", "6 Months", "Yearly"]

/-- `calculate_monthly_equivalent` from `recurring_transactions.py`: converts
any cadence to a monthly amount, falling through to `return amount` on an
unrecognized frequency. -/
def calculate_monthly_equivalent (amount : ℚ) (frequency : String) : ℚ :=
  if frequency = "Daily" then amount * 30
  else if frequency = "Weekly" then amount * (433 / 100)
  else if frequency = "Monthly" then amount
  else if frequency = "3 Months" then amount / 3
  else if frequency = "6 Months" then amount / 6
  else if frequency = "Yearly" then amount / 12
  else amount

/-- A row of the `recurring_transactions` table (the `created_at` column is
display-only and omitted). -/
structure RecRule where
  id : Nat
  user_id : String
  type_ : String
  category : String
  amount : ℚ
  frequency : String
  start_date : Date
  next_date : Date
  description : String
deriving DecidableEq, Repr

/-- A row of the `income` table (columns touched by this core). -/
structure IncomeRow where
  user_id : String
  source : String
  amount : ℚ
  date : Date
  notes : String
deriving DecidableEq, Repr

/-- A row of the `expenses` table (columns touched by this core). -/
structure ExpenseRow where
  user_id : String
  category : String
  amount : ℚ
  date : Date
  description : String
deriving DecidableEq, Repr

/-- The persistent store slice the recurring-transaction core reads and
writes: the three tables, plus the `AUTOINCREMENT` counter that assigns
`recurring_transactions.id`. -/
structure DB where
  recurring : List RecRule
  income : List IncomeRow
  expenses : List ExpenseRow
  nextId : Nat
deriving DecidableEq, Repr

/-- The empty database (fresh store after `init`). -/
def DB.empty : DB := ⟨[], [], [], 0⟩

/-- `add_recurring_transaction` (database.py): inserts a row with
`next_date = start_date` and a fresh autoincrement id. -/
def add_recurring_transaction (db : DB) (uid ttype category : String)
    (amount : ℚ) (frequency : String) (start_date : Date)
    (description : String) : DB :=
  { db with
    recurring := db.recurring ++
      [⟨db.nextId, uid, ttype, category, amount, frequency,
        start_date, start_date, description⟩],
    nextId := db.nextId + 1 }

/-- `delete_recurring_transaction` (database.py): `DELETE FROM
recurring_transactions WHERE id = ?` — keyed by id alone, no `user_id`
filter.  Returns the new store and `rows_affected > 0`. -/
def delete_recurring_transaction (db : DB) (transaction_id : Nat) :
    DB × Bool :=
  ({ db with
      recurring := db.recurring.filter (fun r => ¬ r.id = transaction_id) },
   decide (∃ r ∈ db.recurring, r.id = transaction_id))

/-- The income row inserted by `process_recurring_transactions` for a due
`Income` rule: dated `today`, notes prefixed with `[Recurring] `. -/
def materializedIncome (r : RecRule) (today : Date) : IncomeRow :=
  ⟨r.user_id, r.category, r.amount, today, "[Recurring] " ++ r.description⟩

/-- The expense row inserted by `process_recurring_transactions` for a due
non-`Income` rule: dated `today`, description prefixed with `[Recurring] `. -/
def materializedExpense (r : RecRule) (today : Date) : ExpenseRow :=
  ⟨r.user_id, r.category, r.amount, today, "[Recurring] " ++ r.description⟩

/-- The `UPDATE recurring_transactions SET next_date = ? WHERE id = ?`
statement: rewrites `next_date` of every row whose id matches. -/
def updateNextDate (db : DB) (transaction_id : Nat) (nd : Date) : DB :=
  { db with
    recurring := db.recurring.map (fun r =>
      if r.id = transaction_id then { r with next_date := nd } else r) }

/-- The SQL due test of `process_recurring_transactions`:
`user_id = ? AND date(next_date) <= date(?)`. -/
def isDue (uid : String) (today : Date) (r : RecRule) : Bool :=
  decide (r.user_id = uid ∧ Date.Le r.next_date today)

/-- The `for trans in due_transactions` loop of
`process_recurring_transactions`: inserts one ledger row per due rule and
rewrites its `next_date` one frequency step ahead.  `none` models a
`ValueError` escaping the loop (the uncaught `Yearly` case), which aborts
the call before `conn.commit()`. -/
def processLoop (today : Date) : List RecRule → DB → Nat → Option (DB × Nat)
  | [], db, n => some (db, n)
  | r :: rest, db, n =>
    let db1 :=
      if r.type_ = "Income" then
        { db with income := db.income ++ [materializedIncome r today] }
      else
        { db with expenses := db.expenses ++ [materializedExpense r today] }
    match computeNextDate r.next_date r.frequency with
    | none => none
    | some nd => processLoop today rest (updateNextDate db1 r.id nd) (n + 1)

/-- `process_recurring_transactions` (database.py): scans the owner's due
rules once, materializes one ledger entry per due rule, advances each rule's
`next_date` by one frequency step, and returns the processed count.
`none` models an escaped `ValueError` (nothing committed). -/
def process_recurring_transactions (db : DB) (uid : String) (today : Date) :
    Option (DB × Nat) :=
  processLoop today (db.recurring.filter (isDue uid today)) db 0

/-- `x` advanced by at most one in-place frequency step: either untouched, or
every field but `next_date` is unchanged and the new `next_date` is the
one-step advance of the old one. -/
def AdvStep (x x' : RecRule) : Prop :=
  x' = x ∨ ({ x with next_date := x'.next_date } = x' ∧
    computeNextDate x.next_date x.frequency = some x'.next_date)

/-- Well-formedness of a stored rule, as established at creation through the
UI form (`st.date_input` always yields a real calendar date and the frequency
selectbox offers only the six strings). -/
def RuleWF (r : RecRule) : Prop :=
  r.start_date.Valid ∧ r.next_date.Valid ∧ Date.Le r.start_date r.next_date ∧
    r.frequency ∈ validFrequencies

/-- Store invariant: every rule is well-formed with id below the
autoincrement counter, and ids are pairwise distinct. -/
def DBInv (db : DB) : Prop :=
  (∀ r ∈ db.recurring, RuleWF r ∧ r.id < db.nextId) ∧
    (db.recurring.map (fun r => r.id)).Nodup

/-- States reachable from the fresh store by the recurring-rule operations:
rule creation (with UI-validated date and frequency), recurrence processing
(when it completes without raising; a raising call persists nothing, leaving
the state unchanged), and rule deletion. -/
inductive Reachable : DB → Prop where
  | empty : Reachable DB.empty
  | create {db : DB} (uid ttype category : String) (amount : ℚ)
      (frequency : String) (start_date : Date) (description : String)
      (hv : start_date.Valid) (hf : frequency ∈ validFrequencies)
      (h : Reachable db) :
      Reachable (add_recurring_transaction db uid ttype category amount
        frequency start_date description)
  | process {db db' : DB} {uid : String} {today : Date} {n : Nat}
      (h : Reachable db)
      (hp : process_recurring_transactions db uid today = some (db', n)) :
      Reachable db'
  | delete {db : DB} (tid : Nat) (h : Reachable db) :
      Reachable (delete_recurring_transaction db tid).1

/-- Fixture: a Monthly expense rule three months overdue on 2024-04-15. -/
def ruleC1 : RecRule :=
  ⟨1, "u", "Expense", "Rent", 500, "Monthly", ⟨2024, 1, 15⟩, ⟨2024, 1, 15⟩,
    "flat"⟩

/-- Fixture: store holding only `ruleC1`. -/
def dbC1 : DB := ⟨[ruleC1], [], [], 2⟩

/-- Fixture: the store `dbC1` after one processing run on 2024-04-15. -/
def dbC1after : DB :=
  ⟨[⟨1, "u", "Expense", "Rent", 500, "Monthly", ⟨2024, 1, 15⟩,
      ⟨2024, 2, 15⟩, "flat"⟩], [],
    [⟨"u", "Rent", 500, ⟨2024, 4, 15⟩, "[Recurring] flat"⟩], 2⟩

/-- Fixture: a rule whose next occurrence lies strictly after 2024-04-15. -/
def ruleC5 : RecRule :=
  ⟨4, "u", "Income", "Salary", 900, "Weekly", ⟨2024, 4, 16⟩, ⟨2024, 4, 16⟩,
    ""⟩

/-- Fixture: store holding only `ruleC5`. -/
def dbC5 : DB := ⟨[ruleC5], [], [], 5⟩

/-- Fixture: a due Income rule for alice on 2024-04-01. -/
def ruleC6 : RecRule :=
  ⟨7, "alice", "Income", "Salary", 50000, "Monthly", ⟨2024, 3, 1⟩,
    ⟨2024, 4, 1⟩, "job"⟩

/-- Fixture: store holding only `ruleC6`. -/
def dbC6 : DB := ⟨[ruleC6], [], [], 8⟩

/-- Fixture: the store `dbC6` after one processing run on 2024-04-01. -/
def dbC6after : DB :=
  ⟨[⟨7, "alice", "Income", "Salary", 50000, "Monthly", ⟨2024, 3, 1⟩,
      ⟨2024, 5, 1⟩, "job"⟩],
    [⟨"alice", "Salary", 50000, ⟨2024, 4, 1⟩, "[Recurring] job"⟩], [], 8⟩

/-- Fixture: the store reached by creating one Monthly rule in a fresh
store. -/
def dbC8 : DB :=
  add_recurring_transaction DB.empty "u" "Expense" "Rent" 500 "Monthly"
    ⟨2024, 1, 15⟩ "flat"

/-- Fixture: a Monthly rule three months overdue on 2024-04-15, for the
double-call scenario. -/
def ruleC4 : RecRule :=
  ⟨1, "u", "Expense", "Rent", 500, "Monthly", ⟨2024, 1, 15⟩, ⟨2024, 1, 15⟩,
    "flat"⟩

/-- Fixture: store holding only `ruleC4`, with empty ledgers. -/
def dbC4 : DB := ⟨[ruleC4], [], [], 2⟩

/-- Fixture: a Monthly rule due exactly on 2024-04-15. -/
def ruleC4w : RecRule :=
  ⟨1, "u", "Expense", "Rent", 500, "Monthly", ⟨2024, 4, 15⟩, ⟨2024, 4, 15⟩,
    "flat"⟩

/-- Fixture: a second rule of the same owner, two months overdue on
2024-04-15. -/
def ruleC4w2 : RecRule :=
  ⟨2, "u", "Income", "Salary", 900, "Monthly", ⟨2024, 2, 10⟩, ⟨2024, 2, 10⟩,
    "job"⟩

/-- Fixture: store holding the exactly-due `ruleC4w` alongside the overdue
`ruleC4w2`. -/
def dbC4w : DB := ⟨[ruleC4w, ruleC4w2], [], [], 3⟩

/-- Fixture: the store `dbC4w` after the first processing run on
2024-04-15. -/
def dbC4wAfter : DB :=
  ⟨[⟨1, "u", "Expense", "Rent", 500, "Monthly", ⟨2024, 4, 15⟩,
      ⟨2024, 5, 15⟩, "flat"⟩,
    ⟨2, "u", "Income", "Salary", 900, "Monthly", ⟨2024, 2, 10⟩,
      ⟨2024, 3, 10⟩, "job"⟩],
    [⟨"u", "Salary", 900, ⟨2024, 4, 15⟩, "[Recurring] job"⟩],
    [⟨"u", "Rent", 500, ⟨2024, 4, 15⟩, "[Recurring] flat"⟩], 3⟩

/-- Fixture: the store `dbC4w` after two processing runs on 2024-04-15: the
still-overdue rule is materialized again, the exactly-due rule is not. -/
def dbC4wAfter2 : DB :=
  ⟨[⟨1, "u", "Expense", "Rent", 500, "Monthly", ⟨2024, 4, 15⟩,
      ⟨2024, 5, 15⟩, "flat"⟩,
    ⟨2, "u", "Income", "Salary", 900, "Monthly", ⟨2024, 2, 10⟩,
      ⟨2024, 4, 10⟩, "job"⟩],
    [⟨"u", "Salary", 900, ⟨2024, 4, 15⟩, "[Recurring] job"⟩,
      ⟨"u", "Salary", 900, ⟨2024, 4, 15⟩, "[Recurring] job"⟩],
    [⟨"u", "Rent", 500, ⟨2024, 4, 15⟩, "[Recurring] flat"⟩], 3⟩

theorem Date.Lt.le {a b : Date} (h : Date.Lt a b) : Date.Le a b := by
  unfold Date.Lt at h; unfold Date.Le; omega

theorem Date.le_refl (a : Date) : Date.Le a a := by
  unfold Date.Le; omega

theorem Date.le_trans {a b c : Date} (h₁ : Date.Le a b) (h₂ : Date.Le b c) :
    Date.Le a c := by
  unfold Date.Le at *; omega

theorem Date.lt_le_trans {a b c : Date} (h₁ : Date.Lt a b) (h₂ : Date.Le b c) :
    Date.Lt a c := by
  unfold Date.Lt Date.Le at *; omega

theorem Date.le_lt_trans {a b c : Date} (h₁ : Date.Le a b) (h₂ : Date.Lt b c) :
    Date.Lt a c := by
  unfold Date.Lt Date.Le at *; omega

theorem Date.not_le_of_lt {a b : Date} (h : Date.Lt a b) : ¬ Date.Le b a := by
  unfold Date.Lt at h; unfold Date.Le; omega

theorem Date.lt_trans {a b c : Date} (h₁ : Date.Lt a b) (h₂ : Date.Lt b c) :
    Date.Lt a c := by
  unfold Date.Lt at *; omega

theorem daysInMonth_pos (y m : Nat) : 1 ≤ daysInMonth y m := by
  unfold daysInMonth
  split
  · split <;> omega
  · split <;> omega

theorem nextDay_valid {d : Date} (hv : d.Valid) : d.nextDay.Valid := by
  obtain ⟨h1, h2, h3, h4⟩ := hv
  have hp1 := daysInMonth_pos d.year (d.month + 1)
  have hp2 := daysInMonth_pos (d.year + 1) 1
  unfold Date.nextDay
  split
  · unfold Date.Valid; dsimp only; omega
  · split
    · unfold Date.Valid; dsimp only; omega
    · unfold Date.Valid; dsimp only; omega

theorem nextDay_lt (d : Date) : Date.Lt d d.nextDay := by
  unfold Date.nextDay
  split
  · unfold Date.Lt; dsimp only; omega
  · split
    · unfold Date.Lt; dsimp only; omega
    · unfold Date.Lt; dsimp only; omega

theorem addDays_valid {d : Date} (hv : d.Valid) (k : Nat) :
    (d.addDays k).Valid := by
  induction k with
  | zero => exact hv
  | succ n ih => exact nextDay_valid ih

theorem addDays_lt {d : Date} (k : Nat) (hk : 0 < k) :
    Date.Lt d (d.addDays k) := by
  induction k with
  | zero => omega
  | succ n ih =>
    rcases Nat.eq_zero_or_pos n with h | h
    · subst h; exact nextDay_lt d
    · exact Date.lt_trans (ih h) (nextDay_lt (d.addDays n))

theorem normalizeMonth_of_le {m y : Nat} (h : m ≤ 12) :
    normalizeMonth m y = (m, y) := by
  unfold normalizeMonth
  rw [if_neg (by omega)]

theorem normalizeMonth_of_gt {m y : Nat} (h1 : 12 < m) (h2 : m ≤ 24) :
    normalizeMonth m y = (m - 12, y + 1) := by
  rw [normalizeMonth, if_pos h1, normalizeMonth_of_le (by omega)]

theorem addMonthsClamped_eq {d : Date} {m y : Nat} (hm1 : 1 ≤ m)
    (hm2 : m ≤ 12) (hd : 1 ≤ d.day) :
    addMonthsClamped d m y =
      ⟨y, m, if d.day ≤ daysInMonth y m then d.day else daysInMonth y m⟩ := by
  unfold addMonthsClamped dateReplace
  by_cases h : d.day ≤ daysInMonth y m
  · rw [if_pos ⟨hm1, hm2, hd, h⟩, if_pos h]
  · rw [if_neg (by tauto), if_neg h]

/-- Target-month landing of the clamped month step: the year/month advance by
exactly `m - d.month (mod 12)` positions and the day is the source day
clamped to the length of the target month. -/
theorem addMonthsClamped_spec {d : Date} {m y : Nat} (hm1 : 1 ≤ m)
    (hm2 : m ≤ 12) (hd : 1 ≤ d.day) :
    (addMonthsClamped d m y).year = y ∧
    (addMonthsClamped d m y).month = m ∧
    (addMonthsClamped d m y).day = min d.day (daysInMonth y m) ∧
    (addMonthsClamped d m y).Valid := by
  rw [addMonthsClamped_eq hm1 hm2 hd]
  have hp := daysInMonth_pos y m
  unfold Date.Valid
  dsimp only
  refine ⟨rfl, rfl, by rw [Nat.min_def], hm1, hm2, by split <;> omega,
    by split <;> omega⟩

theorem computeNextDate_daily (d : Date) :
    computeNextDate d "Daily" = some (d.addDays 1) := rfl

theorem computeNextDate_weekly (d : Date) :
    computeNextDate d "Weekly" = some (d.addDays 7) := by
  unfold computeNextDate
  rw [if_neg (by decide), if_pos rfl]

theorem computeNextDate_yearly (d : Date) :
    computeNextDate d "Yearly" = dateReplace (d.year + 1) d.month d.day := by
  unfold computeNextDate
  rw [if_neg (by decide), if_neg (by decide), if_neg (by decide),
    if_neg (by decide), if_neg (by decide), if_pos rfl]

theorem computeNextDate_unknown {f : String} (hf : f ∉ validFrequencies)
    (d : Date) : computeNextDate d f = some d := by
  unfold validFrequencies at hf
  simp only [List.mem_cons, List.not_mem_nil, or_false] at hf
  push_neg at hf
  obtain ⟨h1, h2, h3, h4, h5, h6⟩ := hf
  unfold computeNextDate
  rw [if_neg h1, if_neg h2, if_neg h3, if_neg h4, if_neg h5, if_neg h6]

/-- The `Monthly`, `3 Months` and `6 Months` branches advance the month index
by exactly 1, 3 and 6 respectively and clamp the day to the target month's
length (`min`), landing on a valid date; they never raise. -/
theorem computeNextDate_monthStep {d : Date} (hv : d.Valid) {f : String}
    {k : Nat}
    (hf : (f = "Monthly" ∧ k = 1) ∨ (f = "3 Months" ∧ k = 3) ∨
      (f = "6 Months" ∧ k = 6)) :
    ∃ d', computeNextDate d f = some d' ∧ d'.Valid ∧
      d'.monthIdx = d.monthIdx + k ∧
      d'.day = min d.day (daysInMonth d'.year d'.month) := by
  obtain ⟨h1, h2, h3, h4⟩ := hv
  rcases hf with ⟨hf, hk⟩ | ⟨hf, hk⟩ | ⟨hf, hk⟩ <;> subst hf <;> subst hk
  · -- Monthly
    unfold computeNextDate
    rw [if_neg (by decide), if_neg (by decide), if_pos rfl]
    dsimp only
    by_cases h : d.month + 1 > 12
    · rw [if_pos h]
      dsimp only
      obtain ⟨e1, e2, e3, e4⟩ := addMonthsClamped_spec (d := d) (m := 1)
        (y := d.year + 1) (by omega) (by omega) h3
      exact ⟨_, rfl, e4, by unfold Date.monthIdx; omega, by rw [e3, e1, e2]⟩
    · rw [if_neg h]
      dsimp only
      obtain ⟨e1, e2, e3, e4⟩ := addMonthsClamped_spec (d := d)
        (m := d.month + 1) (y := d.year) (by omega) (by omega) h3
      exact ⟨_, rfl, e4, by unfold Date.monthIdx; omega, by rw [e3, e1, e2]⟩
  · -- 3 Months
    unfold computeNextDate
    rw [if_neg (by decide), if_neg (by decide), if_neg (by decide), if_pos rfl]
    dsimp only
    by_cases h : d.month + 3 > 12
    · rw [normalizeMonth_of_gt (by omega) (by omega)]
      dsimp only
      obtain ⟨e1, e2, e3, e4⟩ := addMonthsClamped_spec (d := d)
        (m := d.month + 3 - 12) (y := d.year + 1) (by omega) (by omega) h3
      exact ⟨_, rfl, e4, by unfold Date.monthIdx; omega, by rw [e3, e1, e2]⟩
    · rw [normalizeMonth_of_le (by omega)]
      dsimp only
      obtain ⟨e1, e2, e3, e4⟩ := addMonthsClamped_spec (d := d)
        (m := d.month + 3) (y := d.year) (by omega) (by omega) h3
      exact ⟨_, rfl, e4, by unfold Date.monthIdx; omega, by rw [e3, e1, e2]⟩
  · -- 6 Months
    unfold computeNextDate
    rw [if_neg (by decide), if_neg (by decide), if_neg (by decide),
      if_neg (by decide), if_pos rfl]
    dsimp only
    by_cases h : d.month + 6 > 12
    · rw [normalizeMonth_of_gt (by omega) (by omega)]
      dsimp only
      obtain ⟨e1, e2, e3, e4⟩ := addMonthsClamped_spec (d := d)
        (m := d.month + 6 - 12) (y := d.year + 1) (by omega) (by omega) h3
      exact ⟨_, rfl, e4, by unfold Date.monthIdx; omega, by rw [e3, e1, e2]⟩
    · rw [normalizeMonth_of_le (by omega)]
      dsimp only
      obtain ⟨e1, e2, e3, e4⟩ := addMonthsClamped_spec (d := d)
        (m := d.month + 6) (y := d.year) (by omega) (by omega) h3
      exact ⟨_, rfl, e4, by unfold Date.monthIdx; omega, by rw [e3, e1, e2]⟩

/-- A month-index advance of `1 ≤ k ≤ 12` on dates with in-range months is a
strict chronological advance. -/
theorem lt_of_monthIdx_step {d d' : Date} (hm : 1 ≤ d.month ∧ d.month ≤ 12)
    (hm' : 1 ≤ d'.month ∧ d'.month ≤ 12) {k : Nat} (hk : 1 ≤ k)
    (h : d'.monthIdx = d.monthIdx + k) : Date.Lt d d' := by
  unfold Date.monthIdx at h
  unfold Date.Lt
  rcases Nat.lt_trichotomy d.year d'.year with hy | hy | hy
  · omega
  · omega
  · exfalso; nlinarith [hm.1, hm.2, hm'.1, hm'.2]

/-- Every branch of the next-date computation other than `Yearly` is total:
it returns a date, never raising. -/
theorem computeNextDate_isSome_of_ne_yearly {f : String} (hf : f ≠ "Yearly")
    (d : Date) : (computeNextDate d f).isSome := by
  unfold computeNextDate
  split_ifs <;> simp_all [addMonthsClamped]

/-- On a valid date, a successful next-date computation yields a valid,
chronologically not-earlier date (equal only for unrecognized frequencies). -/
theorem computeNextDate_valid_le {d d' : Date} (hv : d.Valid) (f : String)
    (h : computeNextDate d f = some d') : d'.Valid ∧ Date.Le d d' := by
  by_cases hin : f ∈ validFrequencies
  · unfold validFrequencies at hin
    simp only [List.mem_cons, List.not_mem_nil, or_false] at hin
    rcases hin with hf | hf | hf | hf | hf | hf <;> subst hf
    · rw [computeNextDate_daily] at h
      rw [show d' = d.addDays 1 from (Option.some.inj h).symm]
      exact ⟨addDays_valid hv 1, (addDays_lt 1 (by omega)).le⟩
    · rw [computeNextDate_weekly] at h
      rw [show d' = d.addDays 7 from (Option.some.inj h).symm]
      exact ⟨addDays_valid hv 7, (addDays_lt 7 (by omega)).le⟩
    · obtain ⟨d₀, e, hva, hidx, _⟩ := computeNextDate_monthStep hv
        (f := "Monthly") (k := 1) (by tauto)
      rw [e] at h
      rw [show d' = d₀ from (Option.some.inj h).symm]
      exact ⟨hva, (lt_of_monthIdx_step ⟨hv.1, hv.2.1⟩ ⟨hva.1, hva.2.1⟩
        (by omega) hidx).le⟩
    · obtain ⟨d₀, e, hva, hidx, _⟩ := computeNextDate_monthStep hv
        (f := "3 Months") (k := 3) (by tauto)
      rw [e] at h
      rw [show d' = d₀ from (Option.some.inj h).symm]
      exact ⟨hva, (lt_of_monthIdx_step ⟨hv.1, hv.2.1⟩ ⟨hva.1, hva.2.1⟩
        (by omega) hidx).le⟩
    · obtain ⟨d₀, e, hva, hidx, _⟩ := computeNextDate_monthStep hv
        (f := "6 Months") (k := 6) (by tauto)
      rw [e] at h
      rw [show d' = d₀ from (Option.some.inj h).symm]
      exact ⟨hva, (lt_of_monthIdx_step ⟨hv.1, hv.2.1⟩ ⟨hva.1, hva.2.1⟩
        (by omega) hidx).le⟩
    · rw [computeNextDate_yearly] at h
      unfold dateReplace at h
      split at h
      · cases h
        next hc => exact ⟨hc, by unfold Date.Le; dsimp only; omega⟩
      · cases h
  · rw [computeNextDate_unknown hin] at h
    cases h
    exact ⟨hv, Date.le_refl d⟩

/-- On a valid date, a successful next-date computation for one of the six
UI frequencies is strictly later than its input. -/
theorem computeNextDate_lt {d d' : Date} (hv : d.Valid) {f : String}
    (hf : f ∈ validFrequencies) (h : computeNextDate d f = some d') :
    Date.Lt d d' := by
  unfold validFrequencies at hf
  simp only [List.mem_cons, List.not_mem_nil, or_false] at hf
  rcases hf with hf | hf | hf | hf | hf | hf <;> subst hf
  · rw [computeNextDate_daily] at h
    rw [show d' = d.addDays 1 from (Option.some.inj h).symm]
    exact addDays_lt 1 (by omega)
  · rw [computeNextDate_weekly] at h
    rw [show d' = d.addDays 7 from (Option.some.inj h).symm]
    exact addDays_lt 7 (by omega)
  · obtain ⟨d₀, e, hva, hidx, _⟩ := computeNextDate_monthStep hv
      (f := "Monthly") (k := 1) (by tauto)
    rw [e] at h
    rw [show d' = d₀ from (Option.some.inj h).symm]
    exact lt_of_monthIdx_step ⟨hv.1, hv.2.1⟩ ⟨hva.1, hva.2.1⟩ (by omega) hidx
  · obtain ⟨d₀, e, hva, hidx, _⟩ := computeNextDate_monthStep hv
      (f := "3 Months") (k := 3) (by tauto)
    rw [e] at h
    rw [show d' = d₀ from (Option.some.inj h).symm]
    exact lt_of_monthIdx_step ⟨hv.1, hv.2.1⟩ ⟨hva.1, hva.2.1⟩ (by omega) hidx
  · obtain ⟨d₀, e, hva, hidx, _⟩ := computeNextDate_monthStep hv
      (f := "6 Months") (k := 6) (by tauto)
    rw [e] at h
    rw [show d' = d₀ from (Option.some.inj h).symm]
    exact lt_of_monthIdx_step ⟨hv.1, hv.2.1⟩ ⟨hva.1, hva.2.1⟩ (by omega) hidx
  · rw [computeNextDate_yearly] at h
    unfold dateReplace at h
    split at h
    · cases h
      unfold Date.Lt
      dsimp only
      omega
    · cases h

theorem updateNextDate_ids (db : DB) (t : Nat) (nd : Date) :
    (updateNextDate db t nd).recurring.map (fun r => r.id) =
      db.recurring.map (fun r => r.id) := by
  unfold updateNextDate
  dsimp only
  rw [List.map_map]
  congr 1
  funext r
  dsimp only [Function.comp]
  split <;> rfl

theorem updateNextDate_income (db : DB) (t : Nat) (nd : Date) :
    (updateNextDate db t nd).income = db.income := rfl

theorem updateNextDate_nextId (db : DB) (t : Nat) (nd : Date) :
    (updateNextDate db t nd).nextId = db.nextId := rfl

theorem updateNextDate_expenses (db : DB) (t : Nat) (nd : Date) :
    (updateNextDate db t nd).expenses = db.expenses := rfl

theorem updateNextDate_mem_of_ne {db : DB} {x : RecRule} {t : Nat} {nd : Date}
    (hx : x ∈ db.recurring) (hne : x.id ≠ t) :
    x ∈ (updateNextDate db t nd).recurring := by
  unfold updateNextDate
  dsimp only
  have := List.mem_map_of_mem
    (fun r => if r.id = t then { r with next_date := nd } else r) hx
  dsimp only at this
  rwa [if_neg hne] at this

theorem processLoop_count {today : Date} {l : List RecRule} {db db' : DB}
    {n m : Nat} (h : processLoop today l db n = some (db', m)) :
    m = n + l.length := by
  induction l generalizing db n with
  | nil =>
    unfold processLoop at h
    cases h
    simp
  | cons r rest ih =>
    unfold processLoop at h
    dsimp only at h
    rcases hc : computeNextDate r.next_date r.frequency with _ | nd
    · rw [hc] at h
      cases h
    · rw [hc] at h
      dsimp only at h
      have := ih h
      simp only [List.length_cons]
      omega

theorem processLoop_nextId {today : Date} {l : List RecRule} {db db' : DB}
    {n m : Nat} (h : processLoop today l db n = some (db', m)) :
    db'.nextId = db.nextId := by
  induction l generalizing db n with
  | nil =>
    unfold processLoop at h
    cases h
    rfl
  | cons r rest ih =>
    unfold processLoop at h
    dsimp only at h
    rcases hc : computeNextDate r.next_date r.frequency with _ | nd
    · rw [hc] at h
      cases h
    · rw [hc] at h
      dsimp only at h
      have := ih h
      rw [this]
      split <;> rfl

theorem processLoop_ids {today : Date} {l : List RecRule} {db db' : DB}
    {n m : Nat} (h : processLoop today l db n = some (db', m)) :
    db'.recurring.map (fun r => r.id) = db.recurring.map (fun r => r.id) := by
  induction l generalizing db n with
  | nil =>
    unfold processLoop at h
    cases h
    rfl
  | cons r rest ih =>
    unfold processLoop at h
    dsimp only at h
    rcases hc : computeNextDate r.next_date r.frequency with _ | nd
    · rw [hc] at h
      cases h
    · rw [hc] at h
      dsimp only at h
      rw [ih h, updateNextDate_ids]
      split <;> rfl

theorem processLoop_ledger_total {today : Date} {l : List RecRule}
    {db db' : DB} {n m : Nat} (h : processLoop today l db n = some (db', m)) :
    db'.income.length + db'.expenses.length =
      db.income.length + db.expenses.length + l.length := by
  induction l generalizing db n with
  | nil =>
    unfold processLoop at h
    cases h
    simp
  | cons r rest ih =>
    unfold processLoop at h
    dsimp only at h
    rcases hc : computeNextDate r.next_date r.frequency with _ | nd
    · rw [hc] at h
      cases h
    · rw [hc] at h
      dsimp only at h
      have := ih h
      unfold updateNextDate at this
      dsimp only at this
      split at this <;>
        simp only [List.length_append, List.length_cons, List.length_nil,
          List.length_map, List.length_cons] at this ⊢ <;> omega

theorem processLoop_income_mono {today : Date} {l : List RecRule}
    {db db' : DB} {n m : Nat} (h : processLoop today l db n = some (db', m))
    {e : IncomeRow} (he : e ∈ db.income) : e ∈ db'.income := by
  induction l generalizing db n with
  | nil =>
    unfold processLoop at h
    cases h
    exact he
  | cons r rest ih =>
    unfold processLoop at h
    dsimp only at h
    rcases hc : computeNextDate r.next_date r.frequency with _ | nd
    · rw [hc] at h
      cases h
    · rw [hc] at h
      dsimp only at h
      refine ih h ?_
      unfold updateNextDate
      dsimp only
      split
      · exact List.mem_append_left _ he
      · exact he

theorem processLoop_expense_mono {today : Date} {l : List RecRule}
    {db db' : DB} {n m : Nat} (h : processLoop today l db n = some (db', m))
    {e : ExpenseRow} (he : e ∈ db.expenses) : e ∈ db'.expenses := by
  induction l generalizing db n with
  | nil =>
    unfold processLoop at h
    cases h
    exact he
  | cons r rest ih =>
    unfold processLoop at h
    dsimp only at h
    rcases hc : computeNextDate r.next_date r.frequency with _ | nd
    · rw [hc] at h
      cases h
    · rw [hc] at h
      dsimp only at h
      refine ih h ?_
      unfold updateNextDate
      dsimp only
      split
      · exact he
      · exact List.mem_append_left _ he

theorem processLoop_materializes {today : Date} {l : List RecRule}
    {db db' : DB} {n m : Nat} (h : processLoop today l db n = some (db', m))
    {r : RecRule} (hr : r ∈ l) :
    (r.type_ = "Income" → materializedIncome r today ∈ db'.income) ∧
    (¬ r.type_ = "Income" → materializedExpense r today ∈ db'.expenses) := by
  induction l generalizing db n with
  | nil => cases hr
  | cons r₀ rest ih =>
    unfold processLoop at h
    dsimp only at h
    rcases hc : computeNextDate r₀.next_date r₀.frequency with _ | nd
    · rw [hc] at h
      cases h
    · rw [hc] at h
      dsimp only at h
      rcases List.mem_cons.mp hr with hr | hr

      · subst hr
        constructor
        · intro ht
          refine processLoop_income_mono h ?_
          unfold updateNextDate
          dsimp only
          rw [if_pos ht]
          exact List.mem_append_right _ (List.mem_singleton.mpr rfl)
        · intro ht
          refine processLoop_expense_mono h ?_
          unfold updateNextDate
          dsimp only
          rw [if_neg ht]
          exact List.mem_append_right _ (List.mem_singleton.mpr rfl)
      · exact ih h hr

theorem mem_eq_of_nodup_ids {L : List RecRule}
    (hids : (L.map (fun r => r.id)).Nodup) {a b : RecRule}
    (ha : a ∈ L) (hb : b ∈ L) (hab : a.id = b.id) : a = b := by
  induction L with
  | nil => cases ha
  | cons x t ih =>
    rw [List.map_cons, List.nodup_cons] at hids
    rcases List.mem_cons.mp ha with rfl | ha' <;>
      rcases List.mem_cons.mp hb with rfl | hb'
    · rfl
    · exact absurd (by rw [hab]; exact List.mem_map_of_mem _ hb') hids.1
    · exact absurd (by rw [← hab]; exact List.mem_map_of_mem _ ha') hids.1
    · exact ih hids.2 ha' hb'

theorem processLoop_pres {today : Date} {l : List RecRule} {db db' : DB}
    {n m : Nat} (h : processLoop today l db n = some (db', m)) {x : RecRule}
    (hx : x ∈ db.recurring) (hnx : x.id ∉ l.map (fun r => r.id)) :
    x ∈ db'.recurring := by
  induction l generalizing db n with
  | nil =>
    unfold processLoop at h
    cases h
    exact hx
  | cons r₀ rest ih =>
    unfold processLoop at h
    dsimp only at h
    rcases hc : computeNextDate r₀.next_date r₀.frequency with _ | nd₀
    · rw [hc] at h
      cases h
    · rw [hc] at h
      dsimp only at h
      rw [List.map_cons] at hnx
      have hx1 : x.id ≠ r₀.id := fun e => hnx (List.mem_cons.mpr (Or.inl e))
      have hx2 : x.id ∉ rest.map (fun r => r.id) :=
        fun e => hnx (List.mem_cons.mpr (Or.inr e))
      refine ih h (updateNextDate_mem_of_ne ?_ hx1) hx2
      split <;> exact hx

theorem updateNextDate_mem_of_eq {db : DB} {x : RecRule} {t : Nat} {nd : Date}
    (hx : x ∈ db.recurring) (he : x.id = t) :
    { x with next_date := nd } ∈ (updateNextDate db t nd).recurring := by
  unfold updateNextDate
  dsimp only
  have := List.mem_map_of_mem
    (fun r => if r.id = t then { r with next_date := nd } else r) hx
  dsimp only at this
  rwa [if_pos he] at this

theorem processLoop_advances {today : Date} {l : List RecRule} {db db' : DB}
    {n m : Nat} (h : processLoop today l db n = some (db', m))
    (hsub : ∀ x ∈ l, x ∈ db.recurring)
    (hl : (l.map (fun r => r.id)).Nodup) :
    ∀ r ∈ l, ∃ nd, computeNextDate r.next_date r.frequency = some nd ∧
      { r with next_date := nd } ∈ db'.recurring := by
  induction l generalizing db n with
  | nil => exact fun r hr => absurd hr (List.not_mem_nil r)
  | cons r₀ rest ih =>
    unfold processLoop at h
    dsimp only at h
    rcases hc : computeNextDate r₀.next_date r₀.frequency with _ | nd₀
    · rw [hc] at h
      cases h
    · rw [hc] at h
      dsimp only at h
      rw [List.map_cons, List.nodup_cons] at hl
      intro r hr
      rcases List.mem_cons.mp hr with rfl | hr'
      · refine ⟨nd₀, hc, processLoop_pres h
          (updateNextDate_mem_of_eq ?_ rfl) hl.1⟩
        split <;> exact hsub r (List.mem_cons_self r rest)
      · refine ih h (fun x hx => updateNextDate_mem_of_ne ?_ ?_) hl.2 r hr'
        · split <;> exact hsub x (List.mem_cons_of_mem r₀ hx)
        · exact fun e => hl.1 (by rw [← e]; exact List.mem_map_of_mem _ hx)

theorem processLoop_origin {today : Date} {l : List RecRule} {db db' : DB}
    {n m : Nat} (h : processLoop today l db n = some (db', m))
    (hids : (db.recurring.map (fun r => r.id)).Nodup)
    (hsub : ∀ x ∈ l, x ∈ db.recurring)
    (hl : (l.map (fun r => r.id)).Nodup) :
    ∀ x' ∈ db'.recurring, ∃ x ∈ db.recurring, AdvStep x x' ∧
      (x.id ∉ l.map (fun r => r.id) → x' = x) := by
  induction l generalizing db n with
  | nil =>
    unfold processLoop at h
    cases h
    exact fun x' hx' => ⟨x', hx', Or.inl rfl, fun _ => rfl⟩
  | cons r₀ rest ih =>
    unfold processLoop at h
    dsimp only at h
    rcases hc : computeNextDate r₀.next_date r₀.frequency with _ | nd₀
    · rw [hc] at h
      cases h
    · rw [hc] at h
      dsimp only at h
      rw [List.map_cons, List.nodup_cons] at hl
      have hr₀db : r₀ ∈ db.recurring := hsub r₀ (List.mem_cons_self r₀ rest)
      have hids1 : ∀ c : Prop, ∀ inst : Decidable c,
          (((if c then
            { db with income := db.income ++ [materializedIncome r₀ today] }
          else
            { db with expenses :=
              db.expenses ++ [materializedExpense r₀ today] }) :
            DB).recurring.map (fun r => r.id)).Nodup := by
        intro c inst
        split <;> exact hids
      have hids2 : ((updateNextDate (if r₀.type_ = "Income" then
            { db with income := db.income ++ [materializedIncome r₀ today] }
          else
            { db with expenses :=
              db.expenses ++ [materializedExpense r₀ today] })
            r₀.id nd₀).recurring.map (fun r => r.id)).Nodup := by
        rw [updateNextDate_ids]
        exact hids1 _ _
      have hsub2 : ∀ x ∈ rest, x ∈ (updateNextDate (if r₀.type_ = "Income" then
            { db with income := db.income ++ [materializedIncome r₀ today] }
          else
            { db with expenses :=
              db.expenses ++ [materializedExpense r₀ today] })
            r₀.id nd₀).recurring := by
        intro x hx
        refine updateNextDate_mem_of_ne ?_ ?_
        · split <;> exact hsub x (List.mem_cons_of_mem r₀ hx)
        · exact fun e => hl.1 (by rw [← e]; exact List.mem_map_of_mem _ hx)
      intro x' hx'
      obtain ⟨x2, hx2mem, hstep2, hfix2⟩ := ih h hids2 hsub2 hl.2 x' hx'
      have hx2mem' : ∃ x ∈ db.recurring,
          (if x.id = r₀.id then { x with next_date := nd₀ } else x) = x2 := by
        unfold updateNextDate at hx2mem
        dsimp only at hx2mem
        by_cases ht : r₀.type_ = "Income"
        · rw [if_pos ht] at hx2mem
          obtain ⟨x, hx, hfx⟩ := List.mem_map.mp hx2mem
          exact ⟨x, hx, hfx⟩
        · rw [if_neg ht] at hx2mem
          obtain ⟨x, hx, hfx⟩ := List.mem_map.mp hx2mem
          exact ⟨x, hx, hfx⟩
      obtain ⟨x, hxmem, hfx⟩ := hx2mem'
      by_cases hxid : x.id = r₀.id
      · have hxr₀ : x = r₀ := mem_eq_of_nodup_ids hids hxmem hr₀db hxid
        subst hxr₀
        rw [if_pos hxid] at hfx
        have hx2id : x2.id = x.id := by rw [← hfx]
        have hx'x2 : x' = x2 := hfix2 (by rw [hx2id, hxid]; exact hl.1)
        refine ⟨x, hxmem, ?_, ?_⟩
        · right
          rw [hx'x2, ← hfx]
          exact ⟨rfl, hc⟩
        · intro hno
          exact absurd (by rw [hxid]; exact List.mem_cons_self _ _) hno
      · rw [if_neg hxid] at hfx
        subst hfx
        refine ⟨x, hxmem, hstep2, ?_⟩
        intro hno
        refine hfix2 ?_
        exact fun e => hno (List.mem_cons_of_mem _ e)

theorem DBInv_empty : DBInv DB.empty := by
  constructor
  · intro r hr
    cases hr
  · exact List.nodup_nil

theorem DBInv_create {db : DB} (hinv : DBInv db)
    {uid ttype category : String} {amount : ℚ} {frequency : String}
    {start_date : Date} {description : String} (hv : start_date.Valid)
    (hf : frequency ∈ validFrequencies) :
    DBInv (add_recurring_transaction db uid ttype category amount frequency
      start_date description) := by
  obtain ⟨hwf, hnd⟩ := hinv
  unfold add_recurring_transaction
  constructor
  · intro r hr
    dsimp only at hr
    rcases List.mem_append.mp hr with hr | hr
    · obtain ⟨h1, h2⟩ := hwf r hr
      exact ⟨h1, by dsimp only; omega⟩
    · rw [List.mem_singleton] at hr
      subst hr
      exact ⟨⟨hv, hv, Date.le_refl _, hf⟩, by dsimp only; omega⟩
  · dsimp only
    rw [List.map_append, List.map_singleton]
    rw [List.nodup_append]
    refine ⟨hnd, List.nodup_singleton _, ?_⟩
    intro a ha hb
    rw [List.mem_singleton] at hb
    subst hb
    obtain ⟨x, hx, hxa⟩ := List.mem_map.mp ha
    exact absurd hxa (show ¬ x.id = db.nextId from by
      have := (hwf x hx).2; omega)

theorem DBInv_delete {db : DB} (hinv : DBInv db) (tid : Nat) :
    DBInv (delete_recurring_transaction db tid).1 := by
  obtain ⟨hwf, hnd⟩ := hinv
  unfold delete_recurring_transaction
  constructor
  · intro r hr
    dsimp only at hr
    exact hwf r (List.mem_filter.mp hr).1
  · dsimp only
    exact List.Nodup.sublist (List.Sublist.map _ (List.filter_sublist _)) hnd

theorem DBInv_process {db db' : DB} {uid : String} {today : Date} {n : Nat}
    (hinv : DBInv db)
    (hp : process_recurring_transactions db uid today = some (db', n)) :
    DBInv db' := by
  obtain ⟨hwf, hnd⟩ := hinv
  unfold process_recurring_transactions at hp
  have hsub : ∀ x ∈ db.recurring.filter (isDue uid today), x ∈ db.recurring :=
    fun x hx => (List.mem_filter.mp hx).1
  have hl : ((db.recurring.filter (isDue uid today)).map
      (fun r => r.id)).Nodup :=
    List.Nodup.sublist (List.Sublist.map _ (List.filter_sublist _)) hnd
  have hnid := processLoop_nextId hp
  have hids := processLoop_ids hp
  constructor
  · intro x' hx'
    obtain ⟨x, hxmem, hstep, _⟩ := processLoop_origin hp hnd hsub hl x' hx'
    obtain ⟨⟨w1, w2, w3, w4⟩, w5⟩ := hwf x hxmem
    rcases hstep with rfl | ⟨he, hc⟩
    · exact ⟨⟨w1, w2, w3, w4⟩, by rw [hnid]; exact w5⟩
    · obtain ⟨hva, hle⟩ := computeNextDate_valid_le w2 x.frequency hc
      refine ⟨⟨?_, ?_, ?_, ?_⟩, ?_⟩
      · rw [← he]
        exact w1
      · exact hva
      · rw [show x'.start_date = x.start_date from by rw [← he]]
        exact Date.le_trans w3 hle
      · rw [show x'.frequency = x.frequency from by rw [← he]]
        exact w4
      · rw [show x'.id = x.id from by rw [← he], hnid]
        exact w5
  · rw [hids]
    exact hnd

theorem Reachable_inv {db : DB} (h : Reachable db) : DBInv db := by
  induction h with
  | empty => exact DBInv_empty
  | create uid ttype category amount frequency start_date description hv hf h ih =>
    exact DBInv_create ih hv hf
  | process h hp ih => exact DBInv_process ih hp
  | delete tid h ih => exact DBInv_delete ih tid

/-- Claim C7: the monthly-equivalent conversion applies the documented factor
for each of the six frequencies, with the two concrete sanity values. -/
theorem C7_monthly_equivalent_conversion :
    (∀ a : ℚ, calculate_monthly_equivalent a "Daily" = a * 30) ∧
    (∀ a : ℚ, calculate_monthly_equivalent a "Weekly" = a * (433 / 100)) ∧
    (∀ a : ℚ, calculate_monthly_equivalent a "Monthly" = a) ∧
    (∀ a : ℚ, calculate_monthly_equivalent a "3 Months" = a / 3) ∧
    (∀ a : ℚ, calculate_monthly_equivalent a "6 Months" = a / 6) ∧
    (∀ a : ℚ, calculate_monthly_equivalent a "Yearly" = a / 12) ∧
    calculate_monthly_equivalent 1400 "Weekly" = 6062 ∧
    calculate_monthly_equivalent 1200 "Yearly" = 100 := by
  refine ⟨?_, ?_, ?_, ?_, ?_, ?_, ?_, ?_⟩
  · intro a
    unfold calculate_monthly_equivalent
    rw [if_pos rfl]
  · intro a
    unfold calculate_monthly_equivalent
    rw [if_neg (by decide), if_pos rfl]
  · intro a
    unfold calculate_monthly_equivalent
    rw [if_neg (by decide), if_neg (by decide), if_pos rfl]
  · intro a
    unfold calculate_monthly_equivalent
    rw [if_neg (by decide), if_neg (by decide), if_neg (by decide),
      if_pos rfl]
  · intro a
    unfold calculate_monthly_equivalent
    rw [if_neg (by decide), if_neg (by decide), if_neg (by decide),
      if_neg (by decide), if_pos rfl]
  · intro a
    unfold calculate_monthly_equivalent
    rw [if_neg (by decide), if_neg (by decide), if_neg (by decide),
      if_neg (by decide), if_neg (by decide), if_pos rfl]
  · unfold calculate_monthly_equivalent
    rw [if_neg (by decide), if_pos rfl]
    norm_num
  · unfold calculate_monthly_equivalent
    rw [if_neg (by decide), if_neg (by decide), if_neg (by decide),
      if_neg (by decide), if_neg (by decide), if_pos rfl]
    norm_num

/-- Claim C3: every next-date branch except `Yearly` is total, but the
`Yearly` branch — whose `date.replace` is not guarded by the `try/except`
used in the month branches — raises on Feb 29 of a leap year, a valid date
with a valid frequency. -/
theorem C3_advance_never_raises :
    (∀ f : String, f ∈ validFrequencies → ¬ f = "Yearly" →
      ∀ d : Date, (computeNextDate d f).isSome) ∧
    (⟨2024, 2, 29⟩ : Date).Valid ∧ "Yearly" ∈ validFrequencies ∧
    computeNextDate ⟨2024, 2, 29⟩ "Yearly" = none := by
  refine ⟨?_, by decide, by decide, by decide⟩
  intro f _ hf d
  exact computeNextDate_isSome_of_ne_yearly hf d

/-- Witness for C3: the Monthly branch is total at a concrete input. -/
theorem C3_witness : (computeNextDate ⟨2024, 1, 31⟩ "Monthly").isSome :=
  C3_advance_never_raises.1 "Monthly" (by decide) (by decide) ⟨2024, 1, 31⟩

/-- Claim C5: when no rule of the owner is due, processing returns count 0
and the returned store is the input store itself — no mutation at all. -/
theorem C5_noop_idempotence {db : DB} {uid : String} {today : Date}
    (h : ∀ r ∈ db.recurring, r.user_id = uid → Date.Lt today r.next_date) :
    process_recurring_transactions db uid today = some (db, 0) := by
  unfold process_recurring_transactions
  have hnil : db.recurring.filter (isDue uid today) = [] := by
    rw [List.filter_eq_nil_iff]
    intro r hr hdue
    unfold isDue at hdue
    have hd := of_decide_eq_true hdue
    exact Date.not_le_of_lt (h r hr hd.1) hd.2
  rw [hnil]
  rfl

/-- Witness for C5: a store whose only rule is due tomorrow is returned
untouched with count 0. -/
theorem C5_witness :
    process_recurring_transactions dbC5 "u" ⟨2024, 4, 15⟩ = some (dbC5, 0) :=
  C5_noop_idempotence (by decide)

/-- Counterexample for C10: on the out-of-enum frequency `"Fortnightly"`
both pure functions silently return fallback values instead of failing, and
a negative amount is converted without any validation. -/
theorem C10_counterexample :
    calculate_monthly_equivalent 100 "Fortnightly" = 100 ∧
    computeNextDate ⟨2024, 5, 1⟩ "Fortnightly" = some ⟨2024, 5, 1⟩ ∧
    calculate_monthly_equivalent (-5) "Daily" = -150 := by
  refine ⟨by decide, by decide, ?_⟩
  unfold calculate_monthly_equivalent
  rw [if_pos rfl]
  norm_num

/-- Claim C10 (amended): neither pure function signals an error on
contractually invalid input — an unknown frequency makes the monthly
equivalent return the amount unchanged and the date advance return the date
unchanged, and negative amounts flow through the same arithmetic. -/
theorem C10_invalid_input_passthrough :
    (∀ (a : ℚ) (f : String), f ∉ validFrequencies →
      calculate_monthly_equivalent a f = a) ∧
    (∀ (d : Date) (f : String), f ∉ validFrequencies →
      computeNextDate d f = some d) ∧
    (∀ a : ℚ, a < 0 → calculate_monthly_equivalent a "Daily" = a * 30) := by
  refine ⟨?_, ?_, ?_⟩
  · intro a f hf
    unfold validFrequencies at hf
    simp only [List.mem_cons, List.not_mem_nil, or_false] at hf
    push_neg at hf
    obtain ⟨h1, h2, h3, h4, h5, h6⟩ := hf
    unfold calculate_monthly_equivalent
    rw [if_neg h1, if_neg h2, if_neg h3, if_neg h4, if_neg h5, if_neg h6]
  · intro d f hf
    exact computeNextDate_unknown hf d
  · intro a _
    unfold calculate_monthly_equivalent
    rw [if_pos rfl]

/-- Witness for C10's amended claim at concrete invalid inputs. -/
theorem C10_witness :
    calculate_monthly_equivalent 7 "Fortnightly" = 7 ∧
    computeNextDate ⟨2024, 5, 1⟩ "Fortnightly" = some ⟨2024, 5, 1⟩ ∧
    calculate_monthly_equivalent (-5) "Daily" = (-5) * 30 :=
  ⟨C10_invalid_input_passthrough.1 7 "Fortnightly" (by decide),
    C10_invalid_input_passthrough.2.1 ⟨2024, 5, 1⟩ "Fortnightly" (by decide),
    C10_invalid_input_passthrough.2.2 (-5) (by norm_num)⟩

/-- Claim C1: under distinct rule ids, one successful processing run gives
each due rule of the owner a one-step `next_date` advance computed from its
prior value, returns the number of due rules, and grows the two ledgers by
exactly that many entries — one per due rule, however overdue it is. -/
theorem C1_single_step_catch_up {db db' : DB} {uid : String} {today : Date}
    {n : Nat} {r : RecRule}
    (hids : (db.recurring.map (fun x => x.id)).Nodup)
    (hr : r ∈ db.recurring) (ho : r.user_id = uid)
    (hdue : Date.Le r.next_date today)
    (hp : process_recurring_transactions db uid today = some (db', n)) :
    (∃ nd, computeNextDate r.next_date r.frequency = some nd ∧
      { r with next_date := nd } ∈ db'.recurring) ∧
    n = (db.recurring.filter (isDue uid today)).length ∧
    db'.income.length + db'.expenses.length =
      db.income.length + db.expenses.length + n := by
  unfold process_recurring_transactions at hp
  have hrf : r ∈ db.recurring.filter (isDue uid today) :=
    List.mem_filter.mpr ⟨hr, decide_eq_true ⟨ho, hdue⟩⟩
  have hsub : ∀ x ∈ db.recurring.filter (isDue uid today),
      x ∈ db.recurring := fun x hx => (List.mem_filter.mp hx).1
  have hl : ((db.recurring.filter (isDue uid today)).map
      (fun x => x.id)).Nodup :=
    List.Nodup.sublist (List.Sublist.map _ (List.filter_sublist _)) hids
  refine ⟨processLoop_advances hp hsub hl r hrf, ?_, ?_⟩
  · have := processLoop_count hp
    omega
  · have h1 := processLoop_ledger_total hp
    have h2 := processLoop_count hp
    omega

/-- Witness for C1: the three-months-overdue Monthly rule is advanced by one
month only and yields one ledger entry. -/
theorem C1_witness :
    (∃ nd, computeNextDate ruleC1.next_date ruleC1.frequency = some nd ∧
      { ruleC1 with next_date := nd } ∈ dbC1after.recurring) ∧
    1 = (dbC1.recurring.filter (isDue "u" ⟨2024, 4, 15⟩)).length ∧
    dbC1after.income.length + dbC1after.expenses.length =
      dbC1.income.length + dbC1.expenses.length + 1 :=
  @C1_single_step_catch_up dbC1 dbC1after "u" ⟨2024, 4, 15⟩ 1 ruleC1
    (by decide) (by decide) rfl (by decide) (by decide)

/-- Claim C6: every entry materialized for a due rule is dated `today`,
copies the rule's amount and category, is routed to income or expenses by
the rule's kind, and carries the `[Recurring]` provenance prefix on its
free-text field. -/
theorem C6_materialized_entry_contents {db db' : DB} {uid : String}
    {today : Date} {n : Nat} {r : RecRule}
    (hr : r ∈ db.recurring) (ho : r.user_id = uid)
    (hdue : Date.Le r.next_date today)
    (hp : process_recurring_transactions db uid today = some (db', n)) :
    (r.type_ = "Income" → ∃ e ∈ db'.income, e.user_id = uid ∧
      e.date = today ∧ e.amount = r.amount ∧ e.source = r.category ∧
      e.notes = "[Recurring] " ++ r.description) ∧
    (¬ r.type_ = "Income" → ∃ e ∈ db'.expenses, e.user_id = uid ∧
      e.date = today ∧ e.amount = r.amount ∧ e.category = r.category ∧
      e.description = "[Recurring] " ++ r.description) := by
  unfold process_recurring_transactions at hp
  have hrf : r ∈ db.recurring.filter (isDue uid today) :=
    List.mem_filter.mpr ⟨hr, decide_eq_true ⟨ho, hdue⟩⟩
  obtain ⟨hi, he⟩ := processLoop_materializes hp hrf
  constructor
  · intro ht
    exact ⟨materializedIncome r today, hi ht, ho, rfl, rfl, rfl, rfl⟩
  · intro ht
    exact ⟨materializedExpense r today, he ht, ho, rfl, rfl, rfl, rfl⟩

/-- Witness for C6 on the concrete due Income rule. -/
theorem C6_witness :
    (ruleC6.type_ = "Income" → ∃ e ∈ dbC6after.income, e.user_id = "alice" ∧
      e.date = ⟨2024, 4, 1⟩ ∧ e.amount = ruleC6.amount ∧
      e.source = ruleC6.category ∧
      e.notes = "[Recurring] " ++ ruleC6.description) ∧
    (¬ ruleC6.type_ = "Income" → ∃ e ∈ dbC6after.expenses,
      e.user_id = "alice" ∧ e.date = ⟨2024, 4, 1⟩ ∧
      e.amount = ruleC6.amount ∧ e.category = ruleC6.category ∧
      e.description = "[Recurring] " ++ ruleC6.description) :=
  @C6_materialized_entry_contents dbC6 dbC6after "alice" ⟨2024, 4, 1⟩ 1 ruleC6
    (by decide) rfl (by decide) (by decide)

/-- Claim C8: in every reachable store, each rule satisfies
`start_date <= next_date`; creation appends a rule whose `next_date` equals
its `start_date`; and each successful processing run changes a rule only by
replacing `next_date` with the one-step advance of its previous value
(never decreasing it, never touching another field, never recomputing from
the processing day). -/
theorem C8_next_occurrence_invariant {db : DB} (h : Reachable db) :
    (∀ r ∈ db.recurring, Date.Le r.start_date r.next_date) ∧
    (∀ (uid ttype category : String) (a : ℚ) (f : String) (s : Date)
      (desc : String),
      (add_recurring_transaction db uid ttype category a f s
        desc).recurring =
        db.recurring ++ [⟨db.nextId, uid, ttype, category, a, f, s, s,
          desc⟩]) ∧
    (∀ (uid : String) (today : Date) (db' : DB) (n : Nat),
      process_recurring_transactions db uid today = some (db', n) →
      ∀ x' ∈ db'.recurring, ∃ x ∈ db.recurring, AdvStep x x' ∧
        Date.Le x.next_date x'.next_date) := by
  obtain ⟨hwf, hnd⟩ := Reachable_inv h
  refine ⟨fun r hr => ((hwf r hr).1).2.2.1, fun _ _ _ _ _ _ _ => rfl, ?_⟩
  intro uid today db' n hp x' hx'
  unfold process_recurring_transactions at hp
  have hsub : ∀ x ∈ db.recurring.filter (isDue uid today),
      x ∈ db.recurring := fun x hx => (List.mem_filter.mp hx).1
  have hl : ((db.recurring.filter (isDue uid today)).map
      (fun x => x.id)).Nodup :=
    List.Nodup.sublist (List.Sublist.map _ (List.filter_sublist _)) hnd
  obtain ⟨x, hx, hstep, _⟩ := processLoop_origin hp hnd hsub hl x' hx'
  refine ⟨x, hx, hstep, ?_⟩
  rcases hstep with rfl | ⟨he, hc⟩
  · exact Date.le_refl _
  · exact (computeNextDate_valid_le ((hwf x hx).1).2.1 x.frequency hc).2

/-- Witness for C8: the invariant instantiated at the concrete reachable
store `dbC8` and its single rule. -/
theorem C8_witness :
    Date.Le (⟨0, "u", "Expense", "Rent", 500, "Monthly", ⟨2024, 1, 15⟩,
        ⟨2024, 1, 15⟩, "flat"⟩ : RecRule).start_date
      (⟨0, "u", "Expense", "Rent", 500, "Monthly", ⟨2024, 1, 15⟩,
        ⟨2024, 1, 15⟩, "flat"⟩ : RecRule).next_date :=
  (C8_next_occurrence_invariant (Reachable.create "u" "Expense" "Rent" 500
    "Monthly" ⟨2024, 1, 15⟩ "flat" (by decide) (by decide)
    Reachable.empty)).1
    ⟨0, "u", "Expense", "Rent", 500, "Monthly", ⟨2024, 1, 15⟩,
      ⟨2024, 1, 15⟩, "flat"⟩ (by decide)

/-- Counterexample for C4: `ruleC4` is due (its `next_occurrence` is on or
before today), yet two same-day calls materialize two ledger entries in
total, because the first call advances the overdue rule by one month only —
still not past today. -/
theorem C4_counterexample :
    isDue "u" ⟨2024, 4, 15⟩ ruleC4 = true ∧
    ((process_recurring_transactions dbC4 "u" ⟨2024, 4, 15⟩).bind
      (fun p => process_recurring_transactions p.1 "u" ⟨2024, 4, 15⟩)).map
        (fun p => p.1.income.length + p.1.expenses.length) = some 2 := by
  decide

/-- Claim C4 (amended): in any store with distinct rule ids, a rule of the
owner due exactly today (not overdue) is materialized once by the first
call, which advances its `next_occurrence` strictly past today; the rule is
therefore absent from the second same-day call's due scan, so the second
call leaves it unchanged and adds exactly one entry per remaining (other)
due rule — one materialized entry for the exactly-due rule in total. -/
theorem C4_no_double_materialization {db db1 : DB} {uid : String}
    {today : Date} {n1 : Nat} {r : RecRule}
    (hids : (db.recurring.map (fun x => x.id)).Nodup)
    (hr : r ∈ db.recurring) (ho : r.user_id = uid)
    (heq : r.next_date = today) (hv : today.Valid)
    (hf : r.frequency ∈ validFrequencies)
    (hp1 : process_recurring_transactions db uid today = some (db1, n1)) :
    (∃ nd, computeNextDate r.next_date r.frequency = some nd ∧
      { r with next_date := nd } ∈ db1.recurring ∧ Date.Lt today nd) ∧
    (∀ x ∈ db1.recurring.filter (isDue uid today), ¬ x.id = r.id) ∧
    (∀ (db2 : DB) (n2 : Nat),
      process_recurring_transactions db1 uid today = some (db2, n2) →
      (∃ nd, computeNextDate r.next_date r.frequency = some nd ∧
        { r with next_date := nd } ∈ db2.recurring) ∧
      n2 = (db1.recurring.filter (isDue uid today)).length ∧
      db2.income.length + db2.expenses.length =
        db1.income.length + db1.expenses.length + n2) := by
  unfold process_recurring_transactions at hp1
  have hrf : r ∈ db.recurring.filter (isDue uid today) :=
    List.mem_filter.mpr ⟨hr, decide_eq_true
      ⟨ho, by rw [heq]; exact Date.le_refl today⟩⟩
  have hsub : ∀ x ∈ db.recurring.filter (isDue uid today),
      x ∈ db.recurring := fun x hx => (List.mem_filter.mp hx).1
  have hl : ((db.recurring.filter (isDue uid today)).map
      (fun x => x.id)).Nodup :=
    List.Nodup.sublist (List.Sublist.map _ (List.filter_sublist _)) hids
  obtain ⟨nd, hnd, hmem1⟩ := processLoop_advances hp1 hsub hl r hrf
  have hlt : Date.Lt today nd := computeNextDate_lt hv hf (heq ▸ hnd)
  have hids1 : (db1.recurring.map (fun x => x.id)).Nodup := by
    rw [processLoop_ids hp1]
    exact hids
  have hnot : ∀ x ∈ db1.recurring.filter (isDue uid today),
      ¬ x.id = r.id := by
    intro x hx hxid
    have hxdue := of_decide_eq_true (List.mem_filter.mp hx).2
    have hxeq : x = { r with next_date := nd } :=
      mem_eq_of_nodup_ids hids1 (List.mem_filter.mp hx).1 hmem1 hxid
    rw [hxeq] at hxdue
    exact Date.not_le_of_lt hlt hxdue.2
  refine ⟨⟨nd, hnd, hmem1, hlt⟩, hnot, ?_⟩
  intro db2 n2 hp2
  unfold process_recurring_transactions at hp2
  have hnotin : ({ r with next_date := nd } : RecRule).id ∉
      (db1.recurring.filter (isDue uid today)).map (fun x => x.id) := by
    intro hin
    obtain ⟨x, hx, hxid⟩ := List.mem_map.mp hin
    exact hnot x hx hxid
  have hcnt := processLoop_count hp2
  have hled := processLoop_ledger_total hp2
  exact ⟨⟨nd, hnd, processLoop_pres hp2 hmem1 hnotin⟩, by omega, by omega⟩

/-- Witness for C4's amended claim: in the two-rule store the exactly-due
rule is advanced past today by the first call and untouched by the second,
which re-materializes only the still-overdue rule. -/
theorem C4_witness :
    (∃ nd, computeNextDate ruleC4w.next_date ruleC4w.frequency = some nd ∧
      { ruleC4w with next_date := nd } ∈ dbC4wAfter.recurring ∧
      Date.Lt ⟨2024, 4, 15⟩ nd) ∧
    ((∃ nd, computeNextDate ruleC4w.next_date ruleC4w.frequency = some nd ∧
      { ruleC4w with next_date := nd } ∈ dbC4wAfter2.recurring) ∧
      1 = (dbC4wAfter.recurring.filter (isDue "u" ⟨2024, 4, 15⟩)).length ∧
      dbC4wAfter2.income.length + dbC4wAfter2.expenses.length =
        dbC4wAfter.income.length + dbC4wAfter.expenses.length + 1) :=
  have h := @C4_no_double_materialization dbC4w dbC4wAfter "u"
    ⟨2024, 4, 15⟩ 2 ruleC4w (by decide) (by decide) rfl rfl (by decide)
    (by decide) (by decide)
  ⟨h.1, h.2.2 dbC4wAfter2 1 (by decide)⟩
